import Mathlib

/-!
Verification development for the stdscore-GUI repository (src/src/main.rs).

The core pipeline (table extraction, name canonicalization, ignore filtering,
per-file aggregation, roster store, cross-file ranking) is shallowly embedded
here.  Modelling conventions, stated once:

* Rust `f32` scores are modelled by `ℚ`.  The one place where IEEE semantics
  matters — division by zero producing a non-finite value (±∞ or NaN) instead
  of a number — is modelled explicitly by `StdVal := Option ℚ`, where `none`
  stands for a non-finite result.  Float rounding is abstracted away.
* The `scraper` HTML5 parser is not re-implemented; a `Document` is the shape
  the code consumes from it: the list of `body > p` elements, each with its
  first descendant `<table>` (if any), a table being a list of rows, a row a
  list of `<td>` cells, and a cell carrying its first `<a>` descendant's
  collected text (if any) plus its full collected text.
* Rust's Unicode `trim` / `to_lowercase` and the regex class `\d` are modelled
  at the ASCII level (all identities exercised by the program's tables and all
  concrete inputs below are ASCII or pass through verbatim).
* `BTreeMap<String, FileResult>` is modelled as an association list with
  replace-on-existing-key insertion (only `get`/`contains_key`/`insert` are
  used by the code, never iteration); `BTreeSet<String>` is modelled as an
  ascending sorted list without duplicates, since `draw_table` iterates it in
  ascending order.
-/

namespace StdScore

/-- Model of Rust `char::is_whitespace` restricted to ASCII. -/
def isWs (c : Char) : Bool := c.isWhitespace

/-- Model of Rust `str::trim`: drop leading and trailing whitespace. -/
def trimChars (cs : List Char) : List Char :=
  ((cs.dropWhile isWs).reverse.dropWhile isWs).reverse

/-- String version of `trimChars`. -/
def trimStr (s : String) : String := ⟨trimChars s.data⟩

/-- Model of Rust `str::to_lowercase` (ASCII level). -/
def lowerStr (s : String) : String := ⟨s.data.map Char.toLower⟩

/-- Attempt to match the regex `-?\d+(?:\.\d+)?` anchored at the head of the
character list (the `(?x)` flag in the source makes the spaces in the pattern
insignificant).  Returns the matched token.  Mirrors the regex engine's
behaviour at one position: an optional minus that must be followed by at least
one digit, a greedy digit run, then optionally a dot followed by at least one
digit. -/
def matchNumAt (cs : List Char) : Option (List Char) :=
  let core : List Char → Option (List Char) := fun l =>
    match l.span Char.isDigit with
    | ([], _) => none
    | (ds, rest) =>
      match rest with
      | '.' :: r2 =>
        match r2.span Char.isDigit with
        | ([], _) => some ds
        | (ds2, _) => some (ds ++ '.' :: ds2)
      | _ => some ds
  match cs with
  | '-' :: rest => (core rest).map (fun t => '-' :: t)
  | _ => core cs

/-- Leftmost match of `-?\d+(?:\.\d+)?`: model of `Regex::find`. -/
def findNumChars : List Char → Option (List Char)
  | [] => none
  | c :: rest =>
    match matchNumAt (c :: rest) with
    | some t => some t
    | none => findNumChars rest

/-- Leftmost numeric token of a string, as the source's `re_num.find`. -/
def findNum (s : String) : Option (List Char) := findNumChars s.data

/-- Numeric value of a digit list (most significant first). -/
def natOfDigits (ds : List Char) : ℕ :=
  ds.foldl (fun acc c => 10 * acc + (c.toNat - '0'.toNat)) 0

/-- Value of a token matched by `matchNumAt`, modelling `str::parse::<f32>`
(which cannot fail on a string of this shape; overflow is abstracted). -/
def parseQ (t : List Char) : ℚ :=
  match t with
  | '-' :: rest => -(parseQpos rest)
  | _ => parseQpos t
where
  /-- Value of an unsigned `digits(.digits)?` token. -/
  parseQpos (t : List Char) : ℚ :=
    match t.span Char.isDigit with
    | (ds, rest) =>
      match rest with
      | '.' :: fs => (natOfDigits ds : ℚ) + (natOfDigits fs : ℚ) / ((10 : ℚ) ^ fs.length)
      | _ => (natOfDigits ds : ℚ)

/-- One parsed row entry: struct `PersonEntry` of the source. -/
structure PersonEntry where
  name : String
  raw_score : ℚ
  deriving Repr, DecidableEq

/-- Struct `FileResult` of the source. -/
structure FileResult where
  people : List PersonEntry
  highest_non_std : ℚ
  deriving Repr, DecidableEq

/-- A `<td>` cell: its first `<a>` descendant's collected text, if any, and
its full collected text. -/
structure Cell where
  anchor : Option String
  text : String
  deriving Repr, DecidableEq

/-- A `<tr>` row is the list of its `<td>` cells. -/
abbrev Row := List Cell

/-- A `<table>` is the list of its `<tr>` rows. -/
structure TableEl where
  rows : List Row
  deriving Repr, DecidableEq

/-- A `body > p` element, carrying its first descendant table if any. -/
structure PElem where
  table : Option TableEl
  deriving Repr, DecidableEq

/-- The document shape consumed by `parse_people_from_html`. -/
structure Document where
  ps : List PElem
  deriving Repr, DecidableEq

/-- The static `REPLACE_NAME` table of the source (`phf_map`), keys lowercase. -/
def REPLACE_NAME : List (String × String) := [("cqyc-wht", "CQYC-王鸿天")]

/-- The replacement step of the source: look the name up lower-cased in
`REPLACE_NAME`; on a hit the value becomes the name, otherwise the name is
kept verbatim (`REPLACE_NAME.get(name.to_lowercase().as_str())`). -/
def replaceName (name : String) : String :=
  match REPLACE_NAME.lookup (lowerStr name) with
  | some v => v
  | none => name

/-- Name extracted from a cell: the first anchor's text if present, else the
cell's full text, trimmed. -/
def cellName (c : Cell) : String :=
  match c.anchor with
  | some a => trimStr a
  | none => trimStr c.text

/-- Name of a row, read from its second cell (`tds[1]`). -/
def nameOfRow (r : Row) : String :=
  match r.get? 1 with
  | some c => cellName c
  | none => ""

/-- Score text of a row: full collected text of its third cell (`tds[2]`). -/
def scoreTextOf (r : Row) : String :=
  match r.get? 2 with
  | some c => c.text
  | none => ""

/-- Error taxonomy of the extraction and aggregation path, matching the
`anyhow` error messages of the source. -/
inductive PErr where
  /-- `String::from_utf8` failed: "The file is not UTF-8 encoded". -/
  | encoding
  /-- "The third p under body was not found". -/
  | noThirdP
  /-- "table not found in 3rd p". -/
  | noTable
  /-- "The table has no data rows". -/
  | noRows
  /-- "Unable to parse number in total score column (name: …)". -/
  | scoreParse (name : String)
  /-- "No one was parsed from the table". -/
  | empty
  deriving Repr, DecidableEq

/-- The row loop of `parse_people_from_html`: rows with fewer than three
cells or an empty extracted name are skipped (warnings); a score cell with no
numeric token aborts the whole file; otherwise the (possibly replaced) name
and parsed score are appended.  After the loop, an empty result is the error
"No one was parsed from the table". -/
def rowsLoop : List Row → List PersonEntry → Except PErr (List PersonEntry)
  | [], acc => if acc = [] then .error .empty else .ok acc
  | r :: rs, acc =>
    if r.length < 3 then rowsLoop rs acc
    else
      let name := nameOfRow r
      if name = "" then rowsLoop rs acc
      else
        match findNum (scoreTextOf r) with
        | none => .error (.scoreParse name)
        | some t => rowsLoop rs (acc ++ [⟨replaceName name, parseQ t⟩])

/-- Model of `parse_people_from_html`: take the third `body > p` element, its
first table, skip the first row (header), then run the row loop. -/
def parse_people_from_html (doc : Document) : Except PErr (List PersonEntry) :=
  match doc.ps.get? 2 with
  | none => .error .noThirdP
  | some p3 =>
    match p3.table with
    | none => .error .noTable
    | some t =>
      match t.rows with
      | [] => .error .noRows
      | _hdr :: rest => rowsLoop rest []

/-- Association-list model of `BTreeMap<String, FileResult>` lookup. -/
def mapLookup (m : List (String × FileResult)) (k : String) : Option FileResult :=
  (m.find? (fun kv => kv.1 = k)).map (fun kv => kv.2)

/-- Model of `BTreeMap::contains_key`. -/
def mapContains (m : List (String × FileResult)) (k : String) : Bool :=
  (m.find? (fun kv => kv.1 = k)).isSome

/-- Model of `BTreeMap::insert`: replace the entry with the given key if any,
otherwise add a new entry. -/
def mapInsert (k : String) (v : FileResult) :
    List (String × FileResult) → List (String × FileResult)
  | [] => [(k, v)]
  | kv :: rest => if kv.1 = k then (k, v) :: rest else kv :: mapInsert k v rest

/-- Lexicographic order on character lists (via code points), the order Rust's
`Ord` gives `String` (UTF-8 byte order agrees with code-point order). -/
def charListLt : List Char → List Char → Bool
  | [], [] => false
  | [], _ :: _ => true
  | _ :: _, [] => false
  | a :: as, b :: bs => if a < b then true else if b < a then false else charListLt as bs

/-- String order used by the `BTreeSet<String>` model. -/
def strLt (a b : String) : Bool := charListLt a.data b.data

/-- Ordered insert into the sorted-list model of `BTreeSet<String>`;
inserting a present element is a no-op. -/
def setInsert (x : String) : List String → List String
  | [] => [x]
  | y :: ys => if x = y then y :: ys else if strLt x y then x :: y :: ys else y :: setInsert x ys

/-- Model of `BTreeSet::extend`. -/
def setExtend (s : List String) (xs : List String) : List String :=
  xs.foldl (fun acc x => setInsert x acc) s

/-- Model of `Iterator::max_by` with `partial_cmp(..).unwrap()` on the raw
scores (parsed scores are never NaN, so the comparison never panics; the
result is `none` exactly when the iterator is empty). -/
def maxQ : List ℚ → Option ℚ
  | [] => none
  | x :: xs =>
    match maxQ xs with
    | none => some x
    | some m => some (if x < m then m else x)

/-- Struct `AppState` of the source (`status` and `precision` are UI
pass-through values, untouched by the pipeline). -/
structure AppState where
  file_order : List String
  per_file : List (String × FileResult)
  all_people : List String
  status : String
  precision : ℕ
  deriving Repr, DecidableEq

/-- Model of `AppState::new` (`Default` with precision 2). -/
def AppState.new : AppState := ⟨[], [], [], "", 2⟩

/-- Model of `AppState::clear`. -/
def AppState.clear (_st : AppState) : AppState := AppState.new

/-- Input bytes, abstracted to whether they decode as UTF-8 and, if so, the
document shape the HTML parser produces from them. -/
inductive HtmlBytes where
  | invalid
  | valid (doc : Document)
  deriving Repr, DecidableEq

/-- Result of `AppState::add_file` on a `&mut self` receiver: `ok` carries the
updated state, `err` carries the error and the state at the early return
(every `?` in the source fires before any mutation), and `panic` marks the
`unwrap()` of `None` when the filtered iterator in the `highest` computation
is empty. -/
inductive AddResult where
  | ok (st : AppState)
  | err (e : PErr) (st : AppState)
  | panic
  deriving Repr, DecidableEq

/-- The `highest` expression of `add_file`: maximum raw score over the parsed
entries whose lower-cased name is not "std" (`None` when that set is empty,
which the source `unwrap`s). -/
def highestOf (parsed : List PersonEntry) : Option ℚ :=
  maxQ ((parsed.filter (fun p => lowerStr p.name ≠ "std")).map (fun p => p.raw_score))

/-- Model of `AppState::add_file`: decode, parse, compute the qualifying
maximum over entries whose lower-cased name is not "std" (panicking if that
set is empty), push the label onto `file_order` only if it is a new key,
extend `all_people` with every parsed name, and insert the `FileResult`. -/
def AppState.add_file (st : AppState) (label : String) (bytes : HtmlBytes) : AddResult :=
  match bytes with
  | .invalid => .err .encoding st
  | .valid doc =>
    match parse_people_from_html doc with
    | .error e => .err e st
    | .ok parsed =>
      match highestOf parsed with
      | none => .panic
      | some highest =>
        let fo := if mapContains st.per_file label then st.file_order
                  else st.file_order ++ [label]
        .ok { st with
              file_order := fo,
              all_people := setExtend st.all_people (parsed.map (fun p => p.name)),
              per_file := mapInsert label ⟨parsed, highest⟩ st.per_file }

/-- States reachable from a fresh `AppState` by successful `add_file` calls
and `clear`. -/
inductive Reachable : AppState → Prop where
  | init : Reachable AppState.new
  | add {st st₂ : AppState} {label : String} {bytes : HtmlBytes} :
      Reachable st → st.add_file label bytes = .ok st₂ → Reachable st₂
  | cleared {st : AppState} : Reachable st → Reachable st.clear

/-- States reachable when no label is ever re-added (every successful
`add_file` uses a label not yet in `per_file`). -/
inductive ReachableFresh : AppState → Prop where
  | init : ReachableFresh AppState.new
  | add {st st₂ : AppState} {label : String} {bytes : HtmlBytes} :
      ReachableFresh st → mapContains st.per_file label = false →
      st.add_file label bytes = .ok st₂ → ReachableFresh st₂
  | cleared {st : AppState} : ReachableFresh st → ReachableFresh st.clear

/-- A standardized-score value as an `f32`: `some q` is a finite value (its
rational magnitude, rounding abstracted), `none` is a non-finite value (NaN
or ±∞).  The only source of non-finite values in the program is division by a
zero `highest_non_std`; `f32` addition and division by a positive count map
finite arguments to finite results and non-finite ones to non-finite ones. -/
abbrev StdVal := Option ℚ

/-- Finite-preserving, non-finite-absorbing addition (model of `f32` `+`). -/
def stdAdd : StdVal → StdVal → StdVal
  | some a, some b => some (a + b)
  | _, _ => none

/-- Division of an accumulated sum by a (positive) count, as `f32` `/`. -/
def stdDivNat : StdVal → ℕ → StdVal
  | some a, n => some (a / (n : ℚ))
  | none, _ => none

/-- The standardized-score expression `(raw / fr.highest_non_std) * 100.0` of
`compute_std_raw_for`: the division is unconditional in the source, and a
zero denominator yields a non-finite `f32` value (NaN when `raw = 0`, ±∞
otherwise), modelled as `none`. -/
def stdExpr (raw highest : ℚ) : StdVal :=
  if highest = 0 then none else some (raw / highest * 100)

/-- Model of `compute_std_raw_for`: look the file up, find the first entry
with the given name, and return its standardized and raw scores. -/
def compute_std_raw_for (per_file : List (String × FileResult)) (file name : String) :
    Option (StdVal × ℚ) :=
  (mapLookup per_file file).bind fun fr =>
    (fr.people.find? (fun p => p.name = name)).map fun pe =>
      (stdExpr pe.raw_score fr.highest_non_std, pe.raw_score)

/-- Struct `PersonScore` of the source. -/
structure PersonScore where
  name : String
  avg_std : StdVal
  scores : List (Option (StdVal × ℚ))
  deriving Repr, DecidableEq

/-- The per-person loop body of `draw_table`: fold over `file_order`
accumulating the running sum, the count of files with data, and the
per-file score column. -/
def scoreLoop (per_file : List (String × FileResult)) (files : List String) (name : String)
    (sum : StdVal) (cnt : ℕ) (scores : List (Option (StdVal × ℚ))) :
    StdVal × ℕ × List (Option (StdVal × ℚ)) :=
  match files with
  | [] => (sum, cnt, scores)
  | f :: fs =>
    match compute_std_raw_for per_file f name with
    | some sr => scoreLoop per_file fs name (stdAdd sum sr.1) (cnt + 1) (scores ++ [some sr])
    | none => scoreLoop per_file fs name sum cnt (scores ++ [none])

/-- The `PersonScore` that `draw_table` builds for one name: average is
`sum / cnt` when `cnt > 0` and `0.0` otherwise. -/
def personScoreFor (st : AppState) (name : String) : PersonScore :=
  let r := scoreLoop st.per_file st.file_order name (some 0) 0 []
  ⟨name, if r.2.1 > 0 then stdDivNat r.1 r.2.1 else some 0, r.2.2⟩

/-- The comparator `|a, b| b.avg_std.partial_cmp(&a.avg_std).unwrap()` as a
Boolean "a sorts no later than b": descending by average.  `partial_cmp` is
partial on NaN (the source would panic there); the `none` cases are given a
total default, and every theorem about the sort assumes finite averages. -/
def stdGe (a b : StdVal) : Bool :=
  match a, b with
  | some x, some y => decide (y ≤ x)
  | _, _ => true

/-- Stable insertion step: `x` is placed before the first element it strictly
outranks or ties with, matching a stable sort's treatment of elements that
precede it in the input. -/
def sortInsert (x : PersonScore) : List PersonScore → List PersonScore
  | [] => [x]
  | y :: ys => if stdGe x.avg_std y.avg_std then x :: y :: ys else y :: sortInsert x ys

/-- Model of `sorted_people.sort_by(...)`: Rust's `sort_by` is a stable sort;
a stable sort is the insertion sort that inserts each element (taken left to
right) before the elements it ties with that came later in the input. -/
def stableSortByAvg : List PersonScore → List PersonScore
  | [] => []
  | x :: l => sortInsert x (stableSortByAvg l)

/-- The ranked rows of `draw_table`: one `PersonScore` per element of
`all_people` (iterated in ascending order, as `BTreeSet` does), stably sorted
by descending average. -/
def rankedPeople (st : AppState) : List PersonScore :=
  stableSortByAvg (st.all_people.map (personScoreFor st))

/-- The identities of the ranked output, in ranked order. -/
def rankedNames (st : AppState) : List String :=
  (rankedPeople st).map (fun p => p.name)

/-- The finite magnitude of an average (all theorems that use it assume the
average is finite). -/
def avgQ (p : PersonScore) : ℚ := p.avg_std.getD 0

/-- The standardized scores of an identity over exactly the files in which it
appears, in `file_order` order: the reference list for the mean. -/
def stdScoresOf (st : AppState) (name : String) : List StdVal :=
  st.file_order.filterMap (fun f => (compute_std_raw_for st.per_file f name).map (fun sr => sr.1))

/-- Sum of a list of standardized scores, starting from `0.0`. -/
def stdSum (l : List StdVal) : StdVal := l.foldl stdAdd (some 0)

/-- The arithmetic mean of a list of standardized scores, as the spec words
it: the sum divided by the number of terms. -/
def specMean (l : List StdVal) : StdVal := stdDivNat (stdSum l) l.length

/-- Modelled from the spec: the Name Canonicalizer pipeline of spec §4.2,
whose structural grammar and patch table are present only in repository
variants outside `src/`.  Step 1: if the structural grammar matches, strip to
the core token.  Step 2: replace the token via the case-sensitive exact-match
patch table.  Step 3: look the (possibly patched) token up lower-cased in the
alias table, using the alias value if found and the token verbatim otherwise.
Step 4: if the grammar does not match, steps 2–3 apply to the raw name. -/
def canonPipeline (grammar : String → Option String) (patch : List (String × String))
    (aliasTab : List (String × String)) (raw : String) : String :=
  let tok := match grammar raw with
             | some core => core
             | none => raw
  let tok2 := match patch.lookup tok with
              | some v => v
              | none => tok
  match aliasTab.lookup (lowerStr tok2) with
  | some v => v
  | none => tok2

/-- A `body > p` element with no table, used by the concrete documents. -/
def pEmpty : PElem := ⟨none⟩

/-- A plain cell (no anchor) with the given text. -/
def cellT (s : String) : Cell := ⟨none, s⟩

/-- A three-cell data row: rank, name, score. -/
def row3 (rank name score : String) : Row := [cellT rank, cellT name, cellT score]

/-- Concrete document whose third `body > p` holds a table with a header row
and one data row per given (name, score) pair. -/
def docOf (entries : List (String × String)) : Document :=
  ⟨[pEmpty, pEmpty, ⟨some ⟨row3 "Rank" "Name" "Score" :: entries.map (fun p => row3 "1" p.1 p.2)⟩⟩]⟩

/-- Document whose only data row is the baseline entry "std" with score 95. -/
def docOnlyStd : Document := docOf [("std", "95")]

/-- Document with a baseline row "std" (score 95) and a row "Alice" (90). -/
def docStdAlice : Document := docOf [("std", "95"), ("Alice", "90")]

/-- Document with the single data row ("x", 1). -/
def docX : Document := docOf [("x", "1")]

/-- Document with the single data row ("y", 2). -/
def docY : Document := docOf [("y", "2")]

/-- Document whose single data row has the score 0. -/
def docZero : Document := docOf [("a", "0")]

/-- Document whose single data row has a score cell with no numeric token. -/
def docBad : Document := docOf [("Bob", "abc")]

/-- The state after loading `docX` under label "A" into a fresh state. -/
def stX : AppState := ⟨["A"], [("A", ⟨[⟨"x", 1⟩], 1⟩)], ["x"], "", 2⟩

/-- The state after re-adding label "A" with `docY` on top of `stX`:
`per_file` is replaced, but `all_people` still holds the stale "x". -/
def stXY : AppState := ⟨["A"], [("A", ⟨[⟨"y", 2⟩], 2⟩)], ["x", "y"], "", 2⟩

/-- The state after loading `docY` under label "A" into a fresh state. -/
def stY : AppState := ⟨["A"], [("A", ⟨[⟨"y", 2⟩], 2⟩)], ["y"], "", 2⟩

/-- The state after loading `docStdAlice` under label "B": the "std" entry
is kept in `people` and in `all_people`, while the qualifying maximum is 90. -/
def stB : AppState := ⟨["B"], [("B", ⟨[⟨"std", 95⟩, ⟨"Alice", 90⟩], 90⟩)], ["Alice", "std"], "", 2⟩

/-- The state after loading `docZero` under label "A": the qualifying maximum
is 0. -/
def stZ : AppState := ⟨["A"], [("A", ⟨[⟨"a", 0⟩], 0⟩)], ["a"], "", 2⟩

/-- The order the ranked table is claimed to obey between an earlier row `a`
and a later row `b`: either a strictly larger average, or an equal average
with the identity strictly smaller. -/
def rankRel (a b : PersonScore) : Prop :=
  avgQ b < avgQ a ∨ (avgQ a = avgQ b ∧ strLt a.name b.name = true)

/-- Consistency of the store: `file_order` has no duplicates, the map keys
have no duplicates, and a label is in `file_order` exactly when it is a key
of `per_file`. -/
def StoreInv (st : AppState) : Prop :=
  st.file_order.Nodup ∧ (st.per_file.map Prod.fst).Nodup ∧
    (∀ l, l ∈ st.file_order ↔ mapContains st.per_file l = true)

/-- Whether the identity has data in at least one file of the store. -/
def hasDataSomewhere (st : AppState) (n : String) : Bool :=
  st.file_order.any (fun f => (compute_std_raw_for st.per_file f n).isSome)

/-- Whether an extraction result is the score-cell `ParseError`. -/
def isScoreParseErr : Except PErr (List PersonEntry) → Bool
  | .error (.scoreParse _) => true
  | _ => false

theorem length_sortInsert (x : PersonScore) (l : List PersonScore) :
    (sortInsert x l).length = l.length + 1 := by
  induction l with
  | nil => rfl
  | cons y ys ih =>
    unfold sortInsert
    by_cases h : stdGe x.avg_std y.avg_std = true
    · simp [h]
    · simp only [Bool.not_eq_true] at h
      simp [h, List.length_cons, ih]

theorem length_stableSortByAvg (l : List PersonScore) :
    (stableSortByAvg l).length = l.length := by
  induction l with
  | nil => rfl
  | cons x xs ih => simp [stableSortByAvg, length_sortInsert, ih]

theorem mem_sortInsert (z x : PersonScore) (l : List PersonScore) :
    z ∈ sortInsert x l ↔ z = x ∨ z ∈ l := by
  induction l with
  | nil => simp [sortInsert]
  | cons y ys ih =>
    unfold sortInsert
    by_cases h : stdGe x.avg_std y.avg_std = true
    · simp [h, or_comm, or_assoc, or_left_comm]
    · simp only [Bool.not_eq_true] at h
      simp [h, ih]
      tauto

theorem mem_stableSortByAvg (z : PersonScore) (l : List PersonScore) :
    z ∈ stableSortByAvg l ↔ z ∈ l := by
  induction l with
  | nil => simp [stableSortByAvg]
  | cons x xs ih => simp [stableSortByAvg, mem_sortInsert, ih]

theorem personScoreFor_name (st : AppState) (n : String) :
    (personScoreFor st n).name = n := rfl

theorem length_rankedNames (st : AppState) :
    (rankedNames st).length = st.all_people.length := by
  simp [rankedNames, rankedPeople, length_stableSortByAvg]

theorem mem_rankedNames (st : AppState) (n : String) (h : n ∈ st.all_people) :
    n ∈ rankedNames st := by
  have hm : personScoreFor st n ∈ st.all_people.map (personScoreFor st) :=
    List.mem_map_of_mem _ h
  have hs : personScoreFor st n ∈ rankedPeople st := by
    rw [rankedPeople, mem_stableSortByAvg]; exact hm
  have := List.mem_map_of_mem (fun p : PersonScore => p.name) hs
  simpa [rankedNames, personScoreFor_name] using this

theorem stdGe_true {x y : PersonScore} (hx : x.avg_std ≠ none) (hy : y.avg_std ≠ none)
    (h : stdGe x.avg_std y.avg_std = true) : avgQ y ≤ avgQ x := by
  rcases hx2 : x.avg_std with _ | a
  · exact absurd hx2 hx
  rcases hy2 : y.avg_std with _ | b
  · exact absurd hy2 hy
  rw [hx2, hy2] at h
  simp only [stdGe, decide_eq_true_eq] at h
  simp [avgQ, hx2, hy2, h]

theorem stdGe_false {x y : PersonScore} (hx : x.avg_std ≠ none) (hy : y.avg_std ≠ none)
    (h : stdGe x.avg_std y.avg_std = false) : avgQ x < avgQ y := by
  rcases hx2 : x.avg_std with _ | a
  · exact absurd hx2 hx
  rcases hy2 : y.avg_std with _ | b
  · exact absurd hy2 hy
  rw [hx2, hy2] at h
  simp only [stdGe, decide_eq_false_iff_not, not_le] at h
  simp [avgQ, hx2, hy2]
  exact h

theorem sortInsert_rank (x : PersonScore) (l : List PersonScore)
    (hx : x.avg_std ≠ none) (hl : ∀ z ∈ l, z.avg_std ≠ none)
    (hn : ∀ z ∈ l, strLt x.name z.name = true)
    (hp : l.Pairwise rankRel) :
    (sortInsert x l).Pairwise rankRel := by
  induction l with
  | nil => simp [sortInsert, List.pairwise_singleton]
  | cons y ys ih =>
    have hy : y.avg_std ≠ none := hl y (by simp)
    unfold sortInsert
    by_cases h : stdGe x.avg_std y.avg_std = true
    · simp only [h, if_true]
      have hyx : avgQ y ≤ avgQ x := stdGe_true hx hy h
      rcases hp with _ | ⟨hyz, hys⟩
      constructor
      · intro z hz
        rcases List.mem_cons.mp hz with rfl | hz2
        · rcases lt_or_eq_of_le hyx with hlt | heq
          · exact Or.inl hlt
          · exact Or.inr ⟨heq.symm, hn z (by simp)⟩
        · rcases hyz z hz2 with hlt | ⟨heq, _⟩
          · exact Or.inl (lt_of_lt_of_le hlt hyx)
          · rcases lt_or_eq_of_le hyx with hlt2 | heq2
            · exact Or.inl (heq ▸ hlt2)
            · exact Or.inr ⟨by rw [← heq2, heq], hn z (List.mem_cons_of_mem y hz2)⟩
      · exact List.Pairwise.cons hyz hys
    · simp only [Bool.not_eq_true] at h
      simp only [h, Bool.false_eq_true, if_false]
      have hxy : avgQ x < avgQ y := stdGe_false hx hy h
      rcases hp with _ | ⟨hyz, hys⟩
      constructor
      · intro z hz
        rw [mem_sortInsert] at hz
        rcases hz with rfl | hz2
        · exact Or.inl hxy
        · exact hyz z hz2
      · exact ih (fun z hz => hl z (List.mem_cons_of_mem y hz))
          (fun z hz => hn z (List.mem_cons_of_mem y hz)) hys

theorem stableSortByAvg_rank (l : List PersonScore)
    (hl : ∀ z ∈ l, z.avg_std ≠ none)
    (hn : l.Pairwise (fun a b => strLt a.name b.name = true)) :
    (stableSortByAvg l).Pairwise rankRel := by
  induction l with
  | nil => simp [stableSortByAvg]
  | cons x xs ih =>
    rcases hn with _ | ⟨hxz, hxs⟩
    exact sortInsert_rank x (stableSortByAvg xs)
      (hl x (by simp))
      (fun z hz => hl z (by simp [(mem_stableSortByAvg z xs).mp hz]))
      (fun z hz => hxz z ((mem_stableSortByAvg z xs).mp hz))
      (ih (fun z hz => hl z (by simp [hz])) hxs)

theorem scoreLoop_spec (pf : List (String × FileResult)) (n : String) :
    ∀ (files : List String) (sum : StdVal) (cnt : ℕ) (scores : List (Option (StdVal × ℚ))),
    (scoreLoop pf files n sum cnt scores).1 =
      (files.filterMap (fun f => (compute_std_raw_for pf f n).map (fun sr => sr.1))).foldl
        stdAdd sum ∧
    (scoreLoop pf files n sum cnt scores).2.1 =
      cnt + (files.filterMap (fun f => (compute_std_raw_for pf f n).map (fun sr => sr.1))).length := by
  intro files
  induction files with
  | nil => intro sum cnt scores; simp [scoreLoop]
  | cons f fs ih =>
    intro sum cnt scores
    unfold scoreLoop
    rcases hc : compute_std_raw_for pf f n with _ | sr
    · simpa [hc] using ih sum cnt (scores ++ [none])
    · have hstep := ih (stdAdd sum sr.1) (cnt + 1) (scores ++ [some sr])
      have hcons : (f :: fs).filterMap
          (fun g => (compute_std_raw_for pf g n).map (fun sr => sr.1)) =
          sr.1 :: fs.filterMap (fun g => (compute_std_raw_for pf g n).map (fun sr => sr.1)) :=
        List.filterMap_cons_some (by simp [hc])
      rw [hcons]
      simp only [hc, List.foldl_cons, List.length_cons]
      refine ⟨hstep.1, ?_⟩
      rw [hstep.2]
      omega

theorem scoreLoop_cnt_zero (st : AppState) (n : String)
    (h : st.file_order.all (fun f => (compute_std_raw_for st.per_file f n).isNone) = true) :
    (personScoreFor st n).avg_std = some 0 := by
  have hs := scoreLoop_spec st.per_file n st.file_order (some 0) 0 []
  have hempty : st.file_order.filterMap
      (fun f => (compute_std_raw_for st.per_file f n).map (fun sr => sr.1)) = [] := by
    rw [List.filterMap_eq_nil_iff]
    intro f hf
    have := (List.all_eq_true.mp h) f hf
    rcases hc : compute_std_raw_for st.per_file f n with _ | sr
    · rfl
    · rw [hc] at this; simp at this
  rw [hempty] at hs
  show (if (scoreLoop st.per_file st.file_order n (some 0) 0 []).2.1 > 0
        then stdDivNat (scoreLoop st.per_file st.file_order n (some 0) 0 []).1
               (scoreLoop st.per_file st.file_order n (some 0) 0 []).2.1
        else some 0) = some 0
  rw [hs.2]
  simp

theorem mapLookup_insert_self (m : List (String × FileResult)) (k : String) (v : FileResult) :
    mapLookup (mapInsert k v m) k = some v := by
  induction m with
  | nil => simp [mapInsert, mapLookup]
  | cons kv rest ih =>
    unfold mapInsert
    by_cases h : kv.1 = k
    · simp [mapLookup, List.find?, h]
    · simp only [h, if_false]
      simp only [mapLookup, List.find?] at ih ⊢
      simp [h, ih]

theorem mapLookup_insert_ne (m : List (String × FileResult)) (k f : String) (v : FileResult)
    (h : f ≠ k) : mapLookup (mapInsert k v m) f = mapLookup m f := by
  have hkf : ¬(k = f) := fun hh => h hh.symm
  induction m with
  | nil => simp [mapInsert, mapLookup, List.find?, hkf]
  | cons kv rest ih =>
    unfold mapInsert
    by_cases hk : kv.1 = k
    · by_cases hf : kv.1 = f
      · exact absurd (hf.symm.trans hk) h
      · simp [mapLookup, List.find?, hk, hf, hkf]
    · simp only [hk, if_false]
      by_cases hf : kv.1 = f
      · simp [mapLookup, List.find?, hf]
      · simp only [mapLookup, List.find?] at ih ⊢
        simp [hf, ih]

theorem mapContains_eq_isSome (m : List (String × FileResult)) (k : String) :
    mapContains m k = (mapLookup m k).isSome := by
  simp [mapContains, mapLookup]

theorem mapInsert_keys_fresh (m : List (String × FileResult)) (k : String) (v : FileResult)
    (h : mapContains m k = false) :
    (mapInsert k v m).map Prod.fst = m.map Prod.fst ++ [k] := by
  induction m with
  | nil => simp [mapInsert]
  | cons kv rest ih =>
    simp only [mapContains, List.find?] at h
    by_cases hk : kv.1 = k
    · simp [hk] at h
    · simp only [mapInsert, hk, if_false, List.map_cons, List.cons_append, List.cons.injEq,
        true_and]
      apply ih
      simp only [mapContains]
      simpa [hk] using h

theorem mapInsert_keys_present (m : List (String × FileResult)) (k : String) (v : FileResult)
    (h : mapContains m k = true) :
    (mapInsert k v m).map Prod.fst = m.map Prod.fst := by
  induction m with
  | nil => simp [mapContains, List.find?] at h
  | cons kv rest ih =>
    by_cases hk : kv.1 = k
    · simp [mapInsert, hk]
    · simp only [mapInsert, hk, if_false, List.map_cons, List.cons.injEq, true_and]
      apply ih
      simp only [mapContains, List.find?] at h ⊢
      simpa [hk] using h

theorem mapContains_insert (m : List (String × FileResult)) (k l : String) (v : FileResult) :
    mapContains (mapInsert k v m) l = (decide (l = k) || mapContains m l) := by
  rw [mapContains_eq_isSome, mapContains_eq_isSome]
  by_cases h : l = k
  · subst h
    simp [mapLookup_insert_self]
  · simp [mapLookup_insert_ne m k l v h, h]

theorem countP_keys_one (m : List (String × FileResult)) (l : String)
    (hnd : (m.map Prod.fst).Nodup) (hc : mapContains m l = true) :
    m.countP (fun kv => kv.1 == l) = 1 := by
  induction m with
  | nil => simp [mapContains, List.find?] at hc
  | cons kv rest ih =>
    simp only [List.map_cons, List.nodup_cons] at hnd
    by_cases hk : kv.1 = l
    · have hz : rest.countP (fun kv2 => kv2.1 == l) = 0 := by
        rw [List.countP_eq_zero]
        intro a ha
        simp only [beq_iff_eq]
        intro hal
        exact hnd.1 (hk ▸ hal ▸ List.mem_map_of_mem Prod.fst ha)
      rw [List.countP_cons]
      simp [hk, hz]
    · rw [List.countP_cons]
      have hcond : ((fun kv2 : String × FileResult => kv2.1 == l) kv = true) = False := by
        simp [hk]
      simp only [hcond, if_false, Nat.add_zero]
      apply ih hnd.2
      simp only [mapContains, List.find?] at hc ⊢
      simpa [hk] using hc

theorem mem_setInsert (a x : String) (s : List String) :
    a ∈ setInsert x s ↔ a = x ∨ a ∈ s := by
  induction s with
  | nil => simp [setInsert]
  | cons y ys ih =>
    by_cases h1 : x = y
    · subst h1
      have hred : setInsert x (x :: ys) = x :: ys := by simp [setInsert]
      rw [hred]
      simp only [List.mem_cons]
      tauto
    · by_cases h2 : strLt x y = true
      · simp only [setInsert, h1, if_false, h2, if_true, List.mem_cons]
      · simp only [Bool.not_eq_true] at h2
        simp only [setInsert, h1, if_false, h2, Bool.false_eq_true, List.mem_cons, ih]
        tauto

theorem mem_setExtend (a : String) (s xs : List String) :
    a ∈ setExtend s xs ↔ a ∈ s ∨ a ∈ xs := by
  induction xs generalizing s with
  | nil => simp [setExtend]
  | cons x rest ih =>
    simp only [setExtend, List.foldl_cons] at ih ⊢
    rw [ih (setInsert x s), mem_setInsert]
    simp [List.mem_cons]
    tauto

theorem add_file_ok_elim {st st₂ : AppState} {label : String} {bytes : HtmlBytes}
    (h : st.add_file label bytes = .ok st₂) :
    ∃ doc parsed highest, bytes = .valid doc ∧
      parse_people_from_html doc = .ok parsed ∧
      highestOf parsed = some highest ∧
      st₂ = { st with
              file_order := if mapContains st.per_file label then st.file_order
                            else st.file_order ++ [label],
              all_people := setExtend st.all_people (parsed.map (fun p => p.name)),
              per_file := mapInsert label ⟨parsed, highest⟩ st.per_file } := by
  cases bytes with
  | invalid => exact absurd h (by simp [AppState.add_file])
  | valid doc =>
    refine ⟨doc, ?_⟩
    simp only [AppState.add_file] at h
    rcases hp : parse_people_from_html doc with e | parsed
    · simp only [hp] at h
      simp at h
    · simp only [hp] at h
      rcases hm : highestOf parsed with _ | highest
      · simp only [hm] at h
        simp at h
      · simp only [hm, AddResult.ok.injEq] at h
        exact ⟨parsed, highest, rfl, rfl, hm, h.symm⟩

theorem add_file_err_elim (st : AppState) (label : String) (bytes : HtmlBytes)
    (e : PErr) (st₂ : AppState) (h : st.add_file label bytes = .err e st₂) : st₂ = st := by
  cases bytes with
  | invalid =>
    unfold AppState.add_file at h
    simp only [AddResult.err.injEq] at h
    exact h.2.symm
  | valid doc =>
    simp only [AppState.add_file] at h
    rcases hp : parse_people_from_html doc with e2 | parsed
    · simp only [hp, AddResult.err.injEq] at h
      exact h.2.symm
    · simp only [hp] at h
      rcases hm : highestOf parsed with _ | highest
      · simp only [hm] at h
        simp at h
      · simp only [hm] at h
        simp at h

theorem mapContains_false_notMem (m : List (String × FileResult)) (k : String)
    (h : mapContains m k = false) : k ∉ m.map Prod.fst := by
  intro hk
  obtain ⟨kv, hkv, hfst⟩ := List.mem_map.mp hk
  rcases hfind : m.find? (fun kv2 => kv2.1 = k) with _ | kv2
  · have := List.find?_eq_none.mp hfind kv hkv
    simp [hfst] at this
  · rw [mapContains, hfind] at h
    simp at h

theorem storeInv_new : StoreInv AppState.new := by
  refine ⟨List.nodup_nil, List.nodup_nil, ?_⟩
  intro l
  simp [AppState.new, mapContains, List.find?]

theorem storeInv_add {st st₂ : AppState} {label : String} {bytes : HtmlBytes}
    (hinv : StoreInv st) (h : st.add_file label bytes = .ok st₂) : StoreInv st₂ := by
  obtain ⟨doc, parsed, highest, _, _, _, hst⟩ := add_file_ok_elim h
  obtain ⟨hfo, hkeys, hmem⟩ := hinv
  subst hst
  by_cases hc : mapContains st.per_file label = true
  · refine ⟨?_, ?_, ?_⟩
    · simpa [hc] using hfo
    · simpa [mapInsert_keys_present st.per_file label _ hc] using hkeys
    · intro l
      simp only [hc, if_true, mapContains_insert]
      by_cases hl : l = label
      · subst hl
        simp [hmem l |>.mpr hc, hc]
      · simp [hl, hmem l]
  · simp only [Bool.not_eq_true] at hc
    have hnot : label ∉ st.file_order := fun hmem2 => by
      have := (hmem label).mp hmem2
      rw [hc] at this
      exact Bool.false_ne_true this
    refine ⟨?_, ?_, ?_⟩
    · simp only [hc, Bool.false_eq_true, if_false]
      simp [List.nodup_append, hfo, hnot]
    · rw [mapInsert_keys_fresh st.per_file label _ hc]
      have hnotk : label ∉ st.per_file.map Prod.fst :=
        mapContains_false_notMem st.per_file label hc
      simp [List.nodup_append, hkeys, hnotk]
    · intro l
      simp only [hc, Bool.false_eq_true, if_false, mapContains_insert, List.mem_append,
        List.mem_singleton]
      by_cases hl : l = label
      · simp [hl]
      · simp [hl, hmem l]

theorem reachable_storeInv {st : AppState} (h : Reachable st) : StoreInv st := by
  induction h with
  | init => exact storeInv_new
  | add _ hok ih => exact storeInv_add ih hok
  | cleared _ _ => exact storeInv_new

theorem compute_isSome_lookup {pf : List (String × FileResult)} {f n : String}
    (h : (compute_std_raw_for pf f n).isSome = true) : (mapLookup pf f).isSome = true := by
  rcases hl : mapLookup pf f with _ | fr
  · rw [compute_std_raw_for, hl] at h
    simp at h
  · simp

theorem reachableFresh_hasData {st : AppState} (h : ReachableFresh st) :
    ∀ n ∈ st.all_people, hasDataSomewhere st n = true := by
  induction h with
  | init => intro n hn; simp [AppState.new] at hn
  | cleared _ _ => intro n hn; simp [AppState.clear, AppState.new] at hn
  | add hreach hfresh hok ih =>
    rename_i st st₂ label bytes
    obtain ⟨doc, parsed, highest, _, _, _, hst⟩ := add_file_ok_elim hok
    subst hst
    intro n hn
    simp only [mem_setExtend] at hn
    simp only [hasDataSomewhere, List.any_eq_true]
    simp only [hfresh, Bool.false_eq_true, if_false]
    rcases hn with hold | hnew
    · have := ih n hold
      simp only [hasDataSomewhere, List.any_eq_true] at this
      obtain ⟨f, hf, hsome⟩ := this
      refine ⟨f, List.mem_append_left _ hf, ?_⟩
      have hne : f ≠ label := by
        intro hfl
        have hcs := compute_isSome_lookup hsome
        rw [← mapContains_eq_isSome, hfl, hfresh] at hcs
        exact Bool.false_ne_true hcs
      rw [compute_std_raw_for, mapLookup_insert_ne st.per_file label f _ hne]
      rw [compute_std_raw_for] at hsome
      exact hsome
    · refine ⟨label, List.mem_append_right _ (by simp), ?_⟩
      rw [compute_std_raw_for, mapLookup_insert_self]
      obtain ⟨pe, hpe, hname⟩ := List.mem_map.mp hnew
      simp only [Option.some_bind]
      rcases hfind : List.find? (fun p => p.name = n) parsed with _ | pe2
      · have := List.find?_eq_none.mp hfind pe hpe
        simp [hname] at this
      · simp [hfind]

theorem rowsLoop_scoreParse : ∀ (rows : List Row) (acc : List PersonEntry),
    (∃ r ∈ rows, 3 ≤ r.length ∧ nameOfRow r ≠ "" ∧ findNum (scoreTextOf r) = none) →
    isScoreParseErr (rowsLoop rows acc) = true := by
  intro rows
  induction rows with
  | nil => intro acc hex; simp at hex
  | cons r2 rs ih =>
    intro acc hex
    obtain ⟨r, hr, hlen, hname, hfind⟩ := hex
    rcases List.mem_cons.mp hr with rfl | hr2
    · unfold rowsLoop
      rw [if_neg (by omega)]
      rw [if_neg hname]
      rw [hfind]
      rfl
    · unfold rowsLoop
      by_cases h3 : r2.length < 3
      · rw [if_pos h3]
        exact ih acc ⟨r, hr2, hlen, hname, hfind⟩
      · rw [if_neg h3]
        by_cases h4 : nameOfRow r2 = ""
        · rw [if_pos h4]
          exact ih acc ⟨r, hr2, hlen, hname, hfind⟩
        · rw [if_neg h4]
          rcases h5 : findNum (scoreTextOf r2) with _ | t
          · rfl
          · exact ih _ ⟨r, hr2, hlen, hname, hfind⟩

/-- C1, counterexample: after loading `docStdAlice` under label "B", the
ignored identity "std" is a member of `all_people` and appears in the ranked
cross-file summary, refuting the claim that ignored identities never appear
in the set of identities from which rankings are derived. -/
theorem c1_counterexample :
    AppState.new.add_file "B" (.valid docStdAlice) = .ok stB ∧
    "std" ∈ stB.all_people ∧ "std" ∈ rankedNames stB :=
  ⟨by decide, by decide, mem_rankedNames stB "std" (by decide)⟩

/-- C1, amended: an entry whose canonical identity is ignored (lower-cases to
"std") never influences the qualifying maximum of a document, no matter where
it sits in the parsed sequence; however such identities are inserted into the
all-identities set and do appear in the ranked summary, as witnessed by the
concrete load of `docStdAlice`. -/
theorem c1_ignored_never_influences_max :
    (∀ (e : PersonEntry) (l₁ l₂ : List PersonEntry), lowerStr e.name = "std" →
      highestOf (l₁ ++ e :: l₂) = highestOf (l₁ ++ l₂)) ∧
    (AppState.new.add_file "B" (.valid docStdAlice) = .ok stB ∧
      "std" ∈ rankedNames stB) := by
  constructor
  · intro e l₁ l₂ he
    unfold highestOf
    rw [List.filter_append, List.filter_append, List.filter_cons]
    simp [he]
  · exact ⟨by decide, mem_rankedNames stB "std" (by decide)⟩

/-- C1, witness for the amended theorem at a concrete ignored entry. -/
theorem c1_witness :
    lowerStr "std" = "std" ∧
    highestOf ([] ++ (⟨"std", 95⟩ : PersonEntry) :: [⟨"Alice", 90⟩]) =
      highestOf ([] ++ [(⟨"Alice", 90⟩ : PersonEntry)]) :=
  ⟨by decide, c1_ignored_never_influences_max.1 ⟨"std", 95⟩ [] [⟨"Alice", 90⟩] (by decide)⟩

/-- C2: a document whose every parsed entry has the ignored identity "std"
parses successfully, and `add_file` then panics (the `unwrap()` of the empty
filtered maximum) instead of returning an `EmptyResultError` to the caller. -/
theorem c2_all_ignored_panics :
    parse_people_from_html docOnlyStd = .ok [⟨"std", 95⟩] ∧
    AppState.new.add_file "C" (.valid docOnlyStd) = .panic :=
  ⟨by rfl, by decide⟩

/-- C3, counterexample: loading `docZero` stores a file whose qualifying
maximum is 0, and the standardized score computed for its identity "a" is the
non-finite value (modelled `none`), not the finite value 0 — the division by
the zero denominator is performed. -/
theorem c3_counterexample :
    AppState.new.add_file "A" (.valid docZero) = .ok stZ ∧
    (mapLookup stZ.per_file "A").map FileResult.highest_non_std = some 0 ∧
    compute_std_raw_for stZ.per_file "A" "a" = some (none, 0) ∧
    (compute_std_raw_for stZ.per_file "A" "a").map Prod.fst ≠ some (some 0) :=
  ⟨by decide, by decide, by decide, by decide⟩

/-- C3, amended: for every stored file whose qualifying maximum is 0,
`compute_std_raw_for` performs the division unconditionally and the
standardized score of every identity appearing in the file is the resulting
non-finite IEEE value (NaN or ±∞, modelled `none`), not 0; the raw score is
still reported and the program does not fault. -/
theorem c3_zero_denominator_nonfinite (pf : List (String × FileResult)) (file n : String)
    (fr : FileResult) (pe : PersonEntry)
    (hl : mapLookup pf file = some fr) (h0 : fr.highest_non_std = 0)
    (hf : fr.people.find? (fun p => p.name = n) = some pe) :
    compute_std_raw_for pf file n = some (none, pe.raw_score) := by
  rw [compute_std_raw_for, hl, Option.some_bind, hf]
  simp [stdExpr, h0]

/-- C3, witness for the amended theorem at the stored zero-maximum file. -/
theorem c3_witness :
    mapLookup stZ.per_file "A" = some ⟨[⟨"a", 0⟩], 0⟩ ∧
    (⟨[⟨"a", 0⟩], 0⟩ : FileResult).highest_non_std = 0 ∧
    (⟨[⟨"a", 0⟩], 0⟩ : FileResult).people.find? (fun p => p.name = "a") = some ⟨"a", 0⟩ ∧
    compute_std_raw_for stZ.per_file "A" "a" = some (none, 0) :=
  ⟨by decide, by decide, by decide,
    c3_zero_denominator_nonfinite stZ.per_file "A" "a" ⟨[⟨"a", 0⟩], 0⟩ ⟨"a", 0⟩
      (by decide) (by decide) (by decide)⟩

/-- C4: the source's canonicalization (trimmed raw name, looked up lower-cased
in `REPLACE_NAME`, replaced on a hit and kept verbatim otherwise) is exactly
the spec's ordered pipeline instantiated with this build's configuration: a
structural grammar that matches nothing, an empty patch table, and
`REPLACE_NAME` as the alias table. -/
theorem c4_canonicalization_is_pipeline :
    ∀ raw : String, replaceName raw = canonPipeline (fun _ => none) [] REPLACE_NAME raw :=
  fun _ => rfl

/-- C5: in every reachable store state, every label in `file_order` has
exactly one entry in `per_file`; and a successful re-add of an existing label
leaves `file_order` entirely unchanged and does not disturb any other label's
`FileResult`. -/
theorem c5_store_consistency (st : AppState) (hr : Reachable st) :
    (∀ l ∈ st.file_order, st.per_file.countP (fun kv => kv.1 == l) = 1) ∧
    (∀ (label : String) (bytes : HtmlBytes) (st₂ : AppState),
      mapContains st.per_file label = true →
      st.add_file label bytes = .ok st₂ →
      st₂.file_order = st.file_order ∧
      ∀ f : String, f ≠ label → mapLookup st₂.per_file f = mapLookup st.per_file f) := by
  obtain ⟨hfo, hkeys, hmem⟩ := reachable_storeInv hr
  constructor
  · intro l hl
    exact countP_keys_one st.per_file l hkeys ((hmem l).mp hl)
  · intro label bytes st₂ hc hok
    obtain ⟨doc, parsed, highest, _, _, _, hst⟩ := add_file_ok_elim hok
    subst hst
    exact ⟨by simp [hc], fun f hf => mapLookup_insert_ne st.per_file label f _ hf⟩

/-- C5, witness at the reachable state `stX` and the re-add producing `stXY`. -/
theorem c5_witness :
    stX.per_file.countP (fun kv => kv.1 == "A") = 1 ∧ stXY.file_order = stX.file_order := by
  have hr : Reachable stX :=
    @Reachable.add AppState.new stX "A" (.valid docX) Reachable.init (by decide)
  exact ⟨(c5_store_consistency stX hr).1 "A" (by decide),
    ((c5_store_consistency stX hr).2 "A" (.valid docY) stXY (by decide) (by decide)).1⟩

/-- C6: for an identity appearing in at least one stored file, the average
standardized score computed by the per-person loop equals the arithmetic mean
of its standardized scores over exactly the files in which it appears (absent
files contribute neither a term nor a zero). -/
theorem c6_average_over_present_files (st : AppState) (n : String)
    (h : stdScoresOf st n ≠ []) :
    (personScoreFor st n).avg_std = specMean (stdScoresOf st n) := by
  have hs := scoreLoop_spec st.per_file n st.file_order (some 0) 0 []
  have hlist : st.file_order.filterMap
      (fun f => (compute_std_raw_for st.per_file f n).map (fun sr => sr.1)) =
      stdScoresOf st n := rfl
  rw [hlist] at hs
  have hpos : 0 < (stdScoresOf st n).length := List.length_pos.mpr h
  show (if (scoreLoop st.per_file st.file_order n (some 0) 0 []).2.1 > 0
        then stdDivNat (scoreLoop st.per_file st.file_order n (some 0) 0 []).1
               (scoreLoop st.per_file st.file_order n (some 0) 0 []).2.1
        else some 0) = specMean (stdScoresOf st n)
  rw [hs.1, hs.2]
  simp only [Nat.zero_add]
  rw [if_pos hpos]
  rfl

/-- C6, witness at the stored state `stZ`, where "a" appears in one file. -/
theorem c6_witness :
    stdScoresOf stZ "a" ≠ [] ∧
    (personScoreFor stZ "a").avg_std = specMean (stdScoresOf stZ "a") :=
  ⟨by decide, c6_average_over_present_files stZ "a" (by decide)⟩

/-- C7, counterexample: two histories producing identical stored `per_file`
maps (loading `docX` then re-loading label "A" with `docY`, versus loading
`docY` directly) yield different ranked outputs, because the ranking also
depends on the accumulated `all_people` set, which retains the stale identity
"x"; so the ranking is not a function of the stored FileResults alone. -/
theorem c7_counterexample :
    AppState.new.add_file "A" (.valid docX) = .ok stX ∧
    stX.add_file "A" (.valid docY) = .ok stXY ∧
    AppState.new.add_file "A" (.valid docY) = .ok stY ∧
    stXY.per_file = stY.per_file ∧
    rankedNames stXY ≠ rankedNames stY := by
  refine ⟨by decide, by decide, by decide, by decide, ?_⟩
  intro h
  have h2 := congrArg List.length h
  rw [length_rankedNames, length_rankedNames] at h2
  exact absurd h2 (by decide)

/-- C7, amended: when every computed average is finite, the ranked output is
sorted by average standardized score descending, and rows with equal averages
appear in identity-ascending order (the stable sort preserves the ascending
iteration order of `all_people`); the ranking is a function of the stored
FileResults together with the accumulated identity set. -/
theorem c7_ranking_sorted (st : AppState)
    (hs : st.all_people.Pairwise (fun a b => strLt a b = true))
    (hf : ∀ n ∈ st.all_people, (personScoreFor st n).avg_std ≠ none) :
    (rankedPeople st).Pairwise rankRel := by
  apply stableSortByAvg_rank
  · intro z hz
    obtain ⟨n, hn, rfl⟩ := List.mem_map.mp hz
    exact hf n hn
  · exact List.Pairwise.map _ (fun a b h => by simpa [personScoreFor_name] using h) hs

/-- C7, witness for the amended theorem at the concrete state `stX`. -/
theorem c7_witness :
    stX.all_people.Pairwise (fun a b => strLt a b = true) ∧
    (∀ n ∈ stX.all_people, (personScoreFor stX n).avg_std ≠ none) ∧
    (rankedPeople stX).Pairwise rankRel := by
  refine ⟨?_, ?_, c7_ranking_sorted stX ?_ ?_⟩ <;> decide

/-- C8: whenever `add_file` fails with an error (encoding, structure, parse,
or empty result), the store it returns is exactly the store it was given — no
`FileResult` is stored, `file_order` is unchanged, and `all_people` is
unchanged. -/
theorem c8_failed_add_leaves_store_unchanged (st : AppState) (label : String)
    (bytes : HtmlBytes) (e : PErr) (st₂ : AppState)
    (h : st.add_file label bytes = .err e st₂) : st₂ = st :=
  add_file_err_elim st label bytes e st₂ h

/-- C8, witness at a non-UTF-8 input. -/
theorem c8_witness :
    AppState.new.add_file "X" .invalid = .err .encoding AppState.new ∧
    AppState.new = AppState.new :=
  ⟨by decide,
    c8_failed_add_leaves_store_unchanged AppState.new "X" .invalid .encoding AppState.new
      (by decide)⟩

/-- C9: the extractor's single policy for a score cell with no numeric token:
any data row that is not pre-skipped (it has at least three cells and a
non-empty extracted name) and whose score cell has no token matching
`-?\d+(\.\d+)?` makes the whole file fail with the score-cell `ParseError`;
no row is ever defaulted to 0.0. -/
theorem c9_missing_token_fails_file (doc : Document) (p3 : PElem) (t : TableEl)
    (hdr r : Row) (rest : List Row)
    (h1 : doc.ps.get? 2 = some p3) (h2 : p3.table = some t)
    (h3 : t.rows = hdr :: rest) (h4 : r ∈ rest) (h5 : 3 ≤ r.length)
    (h6 : nameOfRow r ≠ "") (h7 : findNum (scoreTextOf r) = none) :
    isScoreParseErr (parse_people_from_html doc) = true := by
  simp only [parse_people_from_html, h1, h2, h3]
  exact rowsLoop_scoreParse rest [] ⟨r, h4, h5, h6, h7⟩

/-- C9, witness at the concrete document `docBad` whose data row's score cell
reads "abc". -/
theorem c9_witness : isScoreParseErr (parse_people_from_html docBad) = true :=
  c9_missing_token_fails_file docBad
    ⟨some ⟨[row3 "Rank" "Name" "Score", row3 "1" "Bob" "abc"]⟩⟩
    ⟨[row3 "Rank" "Name" "Score", row3 "1" "Bob" "abc"]⟩
    (row3 "Rank" "Name" "Score") (row3 "1" "Bob" "abc") [row3 "1" "Bob" "abc"]
    (by decide) (by decide) (by decide) (by decide) (by decide) (by decide) (by decide)

/-- C10, counterexample: after re-adding label "A" with `docY`, the identity
"x" is still in `all_people` but appears in no currently stored `FileResult`,
refuting the claimed invariant. -/
theorem c10_counterexample :
    AppState.new.add_file "A" (.valid docX) = .ok stX ∧
    stX.add_file "A" (.valid docY) = .ok stXY ∧
    "x" ∈ stXY.all_people ∧
    stXY.file_order.all (fun f => (compute_std_raw_for stXY.per_file f "x").isNone) = true :=
  ⟨by decide, by decide, by decide, by decide⟩

/-- C10, amended: the invariant holds as long as no label is ever re-added
(every identity in `all_people` then has data in at least one stored file);
in general a re-add can strand identities with data in zero files, and for
such identities the average computation returns 0 (the zero-count branch)
rather than being never encountered. -/
theorem c10_identities_have_data :
    (∀ st : AppState, ReachableFresh st → ∀ n ∈ st.all_people, hasDataSomewhere st n = true) ∧
    (∀ (st : AppState) (n : String),
      st.file_order.all (fun f => (compute_std_raw_for st.per_file f n).isNone) = true →
      (personScoreFor st n).avg_std = some 0) :=
  ⟨fun _ h => reachableFresh_hasData h, fun st n h => scoreLoop_cnt_zero st n h⟩

/-- C10, witness: both parts at concrete states — the fresh history reaching
`stX`, and the stale identity "x" of `stXY`. -/
theorem c10_witness :
    hasDataSomewhere stX "x" = true ∧ (personScoreFor stXY "x").avg_std = some 0 := by
  have hrf : ReachableFresh stX :=
    @ReachableFresh.add AppState.new stX "A" (.valid docX) ReachableFresh.init
      (by decide) (by decide)
  exact ⟨c10_identities_have_data.1 stX hrf "x" (by decide),
    c10_identities_have_data.2 stXY "x" (by decide)⟩

end StdScore
